import Mathlib

/-!
Verification of the L-BFGS solver subsystem (history buffer, two-loop
preconditioner, backtracking and zoom line searches, outer loop) of the
optax example notebooks.

The outer driver (`run_opt` / `continuing_criterion`) is embedded from the
notebook source.  The L-BFGS transformation and the two line searches live
in the optax library, whose code is not part of the source tree here (the
notebooks only call into it); those components are modelled from the spec,
as marked on each definition.

Vectors are embedded as functions `Fin n → ℚ` (exact arithmetic), with the
Euclidean inner product `dot`.
-/

namespace Optax

abbrev Vec (n : ℕ) := Fin n → ℚ

/-- Euclidean inner product of two vectors. -/
def dot {n : ℕ} (x y : Vec n) : ℚ := ∑ i, x i * y i

/-! ## Secant pairs and the history buffer -/

/-- Modelled from the spec: `SecantPair` record of §3 — position delta,
gradient delta, and cached `inverse_curvature = 1 / dot(position_delta,
gradient_delta)` (the optax library code holding this record is not part
of the source tree). -/
structure SecantPair (n : ℕ) where
  position_delta : Vec n
  gradient_delta : Vec n
  inverse_curvature : ℚ
deriving DecidableEq

/-- A pair with positive curvature whose cached inverse curvature is the
reciprocal of `dot(position_delta, gradient_delta)`. -/
def ValidPair {n : ℕ} (p : SecantPair n) : Prop :=
  0 < dot p.position_delta p.gradient_delta ∧
    p.inverse_curvature * dot p.position_delta p.gradient_delta = 1

instance {n : ℕ} (p : SecantPair n) : Decidable (ValidPair p) := by
  unfold ValidPair
  infer_instance

/-- The last `m` elements of a list, in order. -/
def takeLast {α : Type} (m : ℕ) (l : List α) : List α :=
  l.drop (l.length - m)

/-- Modelled from the spec: pushing a candidate secant pair into the
history buffer (§3, §4.4; library code absent from the source tree).  The
history is stored oldest first.  The pair is stored only when
`dot(position_delta, gradient_delta) > ε`; otherwise the buffer is
returned unchanged.  On storage the oldest pairs are evicted so that at
most `memory_size` pairs remain. -/
def push {n : ℕ} (memory_size : ℕ) (ε : ℚ) (hist : List (SecantPair n))
    (position_delta gradient_delta : Vec n) : List (SecantPair n) :=
  if ε < dot position_delta gradient_delta then
    takeLast memory_size
      (hist ++ [⟨position_delta, gradient_delta,
                 1 / dot position_delta gradient_delta⟩])
  else
    hist

/-- The secant pair that `push` stores for a candidate
`(position_delta, gradient_delta)`. -/
def mkPair {n : ℕ} (x : Vec n × Vec n) : SecantPair n :=
  ⟨x.1, x.2, 1 / dot x.1 x.2⟩

/-! ## The two-loop preconditioner -/

/-- Modelled from the spec: backward pass of the two-loop recursion
(§4.1 step 2; library code absent from the source tree).  The history is
given newest pair first; the pass walks it from the newest to the oldest
pair, updating `q` and recording each `alpha_i` (aligned position-wise
with the history list). -/
def backwardPass {n : ℕ} : List (SecantPair n) → Vec n → Vec n × List ℚ
  | [], q => (q, [])
  | p :: rest, q =>
      let α := p.inverse_curvature * dot p.position_delta q
      let pr := backwardPass rest (q - α • p.gradient_delta)
      (pr.1, α :: pr.2)

/-- Modelled from the spec: forward pass of the two-loop recursion
(§4.1 step 4; library code absent from the source tree).  The history and
the `alpha` list are given newest first, and the pass processes the
oldest pair first. -/
def forwardPass {n : ℕ} : List (SecantPair n) → List ℚ → Vec n → Vec n
  | [], _, r => r
  | _ :: _, [], r => r
  | p :: rest, α :: αs, r =>
      let r' := forwardPass rest αs r
      r' + (α - p.inverse_curvature * dot p.gradient_delta r') • p.position_delta

/-- Modelled from the spec: the initial inverse-Hessian scaling `gamma`
(§4.1 step 3; library code absent from the source tree).  The history is
newest pair first, so `position_delta_last` is the head. -/
def gammaOf {n : ℕ} (scale_init_precond : Bool) (hist : List (SecantPair n)) : ℚ :=
  match scale_init_precond, hist with
  | false, _ => 1
  | true, [] => 1
  | true, p :: _ =>
      dot p.position_delta p.gradient_delta /
        dot p.gradient_delta p.gradient_delta

/-- Modelled from the spec: `direction = precondition(gradient, history)`
(§4.1; library code absent from the source tree): backward pass, initial
scaling, forward pass, negation. -/
def precondition {n : ℕ} (scale_init_precond : Bool)
    (hist : List (SecantPair n)) (gradient : Vec n) : Vec n :=
  -(forwardPass hist (backwardPass hist gradient).2
      (gammaOf scale_init_precond hist • (backwardPass hist gradient).1))

/-- The two-loop recursion fused into a single structural recursion on the
(newest-first) history: each step performs the backward-pass update for
the newest pair on the way in and the forward-pass update on the way
out.  `twoLoop hist γ g` applies the implied inverse-Hessian
approximation with initial scaling `γ` to `g`. -/
def twoLoop {n : ℕ} : List (SecantPair n) → ℚ → Vec n → Vec n
  | [], γ, g => γ • g
  | p :: rest, γ, g =>
      let α := p.inverse_curvature * dot p.position_delta g
      let r := twoLoop rest γ (g - α • p.gradient_delta)
      r + (α - p.inverse_curvature * dot p.gradient_delta r) • p.position_delta

/-! ## The solver state and update -/

/-- Modelled from the spec: `SolverState` (§3, §4.4; the optax library
state records are not part of the source tree).  The current point is kept
alongside the solver bookkeeping; `count` is the iteration count. -/
structure SolverState (n : ℕ) where
  point : Vec n
  value : ℚ
  grad : Vec n
  history : List (SecantPair n)
  count : ℕ
deriving DecidableEq

/-- Modelled from the spec: `init(params)` (§4.4) — evaluator called once
at `params` for value and gradient, empty history, iteration count 0. -/
def initState {n : ℕ} (f : Vec n → ℚ) (gf : Vec n → Vec n)
    (params : Vec n) : SolverState n :=
  ⟨params, f params, gf params, [], 0⟩

/-- Modelled from the spec: one solver `update` step (§4.4; library code
absent from the source tree).  The configured line search is passed as a
function from `(point, direction, value, grad)` to
`(step, value', grad')`.  The update computes the preconditioned
direction, runs the line search, forms `position_delta = step·direction`
and `gradient_delta = grad' - grad`, attempts the history push, moves the
point, and increments the count. -/
def update {n : ℕ}
    (linesearch : Vec n → Vec n → ℚ → Vec n → ℚ × ℚ × Vec n)
    (scale_init_precond : Bool) (memory_size : ℕ) (ε : ℚ)
    (st : SolverState n) : SolverState n :=
  let direction := precondition scale_init_precond st.history st.grad
  let res := linesearch st.point direction st.value st.grad
  let position_delta := res.1 • direction
  let gradient_delta := res.2.2 - st.grad
  { point := st.point + position_delta
    value := res.2.1
    grad := res.2.2
    history := push memory_size ε st.history position_delta gradient_delta
    count := st.count + 1 }

/-! ## The outer driver (embedded from the source notebook) -/

/-- Embedded from the source (`continuing_criterion` inside `run_opt`,
src/unnamed/part_001): `(iter_num == 0) | ((iter_num < max_iter) & (err >=
tol))`, where `err = optax.tree.norm(grad)` is passed here as the already
computed gradient norm. -/
def continuing_criterion (max_iter : ℕ) (tol : ℚ) (iter_num : ℕ)
    (err : ℚ) : Bool :=
  (iter_num == 0) || (decide (iter_num < max_iter) && decide (err ≥ tol))

/-- A bounded while-loop: runs `stepf` while `pred` holds, for at most
`fuel` iterations (shallow embedding of `jax.lax.while_loop`). -/
def runOptLoop {α : Type} (pred : α → Bool) (stepf : α → α) :
    ℕ → α → α
  | 0, c => c
  | fuel + 1, c => if pred c then runOptLoop pred stepf fuel (stepf c) else c

/-- Embedded from the source (`run_opt`, src/unnamed/part_001): the
while-loop drives `stepf` (one `opt.update` application) from the carry
`(init_params, opt.init(init_params))` under `continuing_criterion`.  The
step function and the norm are abstract; the initial solver state has
iteration count 0 (spec §4.4 `init`). -/
def run_opt {n : ℕ}
    (stepf : Vec n × SolverState n → Vec n × SolverState n)
    (errf : Vec n → ℚ) (max_iter : ℕ) (tol : ℚ) (fuel : ℕ)
    (f : Vec n → ℚ) (gf : Vec n → Vec n) (init_params : Vec n) :
    Vec n × SolverState n :=
  runOptLoop
    (fun c => continuing_criterion max_iter tol c.2.count (errf c.2.grad))
    stepf fuel (init_params, initState f gf init_params)

/-! ## The backtracking (Armijo) line search -/

/-- Result of a backtracking line-search invocation: accepted (or last
tried) step, objective value there, optional gradient, number of
objective evaluations, and the failure flag. -/
structure BTResult (n : ℕ) where
  step : ℚ
  value : ℚ
  grad : Option (Vec n)
  num_evals : ℕ
  failed : Bool
deriving DecidableEq

/-- Modelled from the spec: the body of `BacktrackingLineSearch` (§4.2;
library code absent from the source tree).  `fuel` is the number of
trials still allowed; each trial evaluates `f` once, accepts when the
Armijo sufficient-decrease condition holds, and otherwise multiplies the
step by `decrease_factor`.  When the last allowed trial is rejected the
result carries that last (smallest) step with `failed = true`.  The
`fuel = 0` case is only reached from a malformed `max_steps = 0`
configuration, which the spec rejects at construction time. -/
def btAux {n : ℕ} (f : Vec n → ℚ) (gf : Vec n → Vec n) (store_grad : Bool)
    (point direction : Vec n) (value0 : ℚ) (grad0 : Vec n)
    (c1 decrease_factor : ℚ) : ℕ → ℚ → ℕ → BTResult n
  | 0, η, evals => ⟨η, value0, none, evals, true⟩
  | fuel + 1, η, evals =>
      if f (point + η • direction) ≤ value0 + c1 * η * dot direction grad0 then
        ⟨η, f (point + η • direction),
         if store_grad then some (gf (point + η • direction)) else none,
         evals + 1, false⟩
      else
        match fuel with
        | 0 => ⟨η, f (point + η • direction), none, evals + 1, true⟩
        | _ + 1 =>
            btAux f gf store_grad point direction value0 grad0 c1
              decrease_factor fuel (decrease_factor * η) (evals + 1)

/-- Modelled from the spec: `BacktrackingLineSearch.search` (§4.2) with
up to `max_steps` objective evaluations, starting from the caller's
initial step guess. -/
def backtracking_linesearch {n : ℕ} (f : Vec n → ℚ) (gf : Vec n → Vec n)
    (store_grad : Bool) (point direction : Vec n) (value0 : ℚ)
    (grad0 : Vec n) (c1 decrease_factor : ℚ) (max_steps : ℕ)
    (init_step : ℚ) : BTResult n :=
  btAux f gf store_grad point direction value0 grad0 c1 decrease_factor
    max_steps init_step 0

/-! ## The zoom (strong-Wolfe) line search -/

/-- Configuration and fixed inputs of one `ZoomLineSearch` invocation
(§4.3): the evaluator (value and gradient), current point and direction,
value and gradient at the current point, the two Wolfe constants, the
bracket-width underflow threshold (standing for machine precision), and
the evaluation budget. -/
structure ZoomCfg (n : ℕ) where
  f : Vec n → ℚ
  gf : Vec n → Vec n
  point : Vec n
  direction : Vec n
  value0 : ℚ
  grad0 : Vec n
  c1 : ℚ
  curv_rtol : ℚ
  wmin : ℚ
  max_steps : ℕ

/-- Objective value along the search ray at step `η`. -/
def phi {n : ℕ} (cfg : ZoomCfg n) (η : ℚ) : ℚ :=
  cfg.f (cfg.point + η • cfg.direction)

/-- Directional derivative (slope) along the search ray at step `η`. -/
def dphi {n : ℕ} (cfg : ZoomCfg n) (η : ℚ) : ℚ :=
  dot cfg.direction (cfg.gf (cfg.point + η • cfg.direction))

/-- The Armijo sufficient-decrease condition at step `η`. -/
def SuffDecreaseAt {n : ℕ} (cfg : ZoomCfg n) (η : ℚ) : Prop :=
  phi cfg η ≤ cfg.value0 + cfg.c1 * η * dot cfg.direction cfg.grad0

/-- The strong-Wolfe curvature condition at step `η`. -/
def CurvatureAt {n : ℕ} (cfg : ZoomCfg n) (η : ℚ) : Prop :=
  |dphi cfg η| ≤ cfg.curv_rtol * |dot cfg.direction cfg.grad0|

/-- A bracket endpoint: a step with its objective value and slope. -/
structure ZoomPt where
  step : ℚ
  value : ℚ
  slope : ℚ
deriving DecidableEq

/-- Reason a zoom line-search run terminated. -/
inductive ZoomReason where
  | success
  | maxEvals
  | bracketUnderflow
deriving DecidableEq

/-- Result of a zoom line-search invocation; `width` is the bracket width
at termination when the run stops on bracket underflow (a diagnostic
field, §4.3). -/
structure ZoomResult where
  step : ℚ
  value : ℚ
  slope : ℚ
  num_evals : ℕ
  failed : Bool
  reason : ZoomReason
  width : ℚ
deriving DecidableEq

/-- Modelled from the spec: the zoom phase of `ZoomLineSearch` (§4.3;
library code absent from the source tree).  Given a bracket `[lo, hi]`,
each round checks bracket-width underflow and the evaluation budget, then
evaluates a trial step inside the bracket and shrinks the bracket by the
standard rules (replace `hi` when sufficient decrease fails or the value
is not below the one at `lo`; accept on curvature; flip the bracket when
the slope sign demands it; otherwise replace `lo`).  The spec leaves the
interpolation formula open (§9) and requires only an
interpolation-with-safeguard scheme; the bisection fallback is used as
the model trial step.  `fuel` is the remaining evaluation budget. -/
def zoomAux {n : ℕ} (cfg : ZoomCfg n) :
    ℕ → ZoomPt → ZoomPt → ℕ → ZoomResult
  | 0, lo, hi, evals =>
      if |hi.step - lo.step| < cfg.wmin then
        ⟨lo.step, lo.value, lo.slope, evals, true, ZoomReason.bracketUnderflow,
         |hi.step - lo.step|⟩
      else
        ⟨lo.step, lo.value, lo.slope, evals, true, ZoomReason.maxEvals,
         |hi.step - lo.step|⟩
  | fuel + 1, lo, hi, evals =>
      if |hi.step - lo.step| < cfg.wmin then
        ⟨lo.step, lo.value, lo.slope, evals, true, ZoomReason.bracketUnderflow,
         |hi.step - lo.step|⟩
      else
        if cfg.value0 + cfg.c1 * ((lo.step + hi.step) / 2) *
              dot cfg.direction cfg.grad0 < phi cfg ((lo.step + hi.step) / 2) ∨
            lo.value ≤ phi cfg ((lo.step + hi.step) / 2) then
          zoomAux cfg fuel lo
            ⟨(lo.step + hi.step) / 2, phi cfg ((lo.step + hi.step) / 2),
             dphi cfg ((lo.step + hi.step) / 2)⟩ (evals + 1)
        else
          if |dphi cfg ((lo.step + hi.step) / 2)| ≤
              cfg.curv_rtol * |dot cfg.direction cfg.grad0| then
            ⟨(lo.step + hi.step) / 2, phi cfg ((lo.step + hi.step) / 2),
             dphi cfg ((lo.step + hi.step) / 2), evals + 1, false,
             ZoomReason.success, 0⟩
          else
            if 0 ≤ dphi cfg ((lo.step + hi.step) / 2) * (hi.step - lo.step) then
              zoomAux cfg fuel
                ⟨(lo.step + hi.step) / 2, phi cfg ((lo.step + hi.step) / 2),
                 dphi cfg ((lo.step + hi.step) / 2)⟩ lo (evals + 1)
            else
              zoomAux cfg fuel
                ⟨(lo.step + hi.step) / 2, phi cfg ((lo.step + hi.step) / 2),
                 dphi cfg ((lo.step + hi.step) / 2)⟩ hi (evals + 1)

/-- Modelled from the spec: the bracketing phase of `ZoomLineSearch`
(§4.3; library code absent from the source tree).  Candidate steps
increase (doubling, a spec-open policy choice) from the initial guess;
each evaluation either ends the search successfully (both conditions
hold), hands a bracket to the zoom phase, or moves on to a larger
candidate.  `prev` is the previous candidate (initially the pseudo
candidate at step 0). -/
def bracketAux {n : ℕ} (cfg : ZoomCfg n) :
    ℕ → ZoomPt → ℚ → ℕ → ZoomResult
  | 0, prev, _, evals =>
      ⟨prev.step, prev.value, prev.slope, evals, true, ZoomReason.maxEvals, 0⟩
  | fuel + 1, prev, η, evals =>
      if cfg.value0 + cfg.c1 * η * dot cfg.direction cfg.grad0 < phi cfg η ∨
          prev.value ≤ phi cfg η then
        zoomAux cfg fuel prev ⟨η, phi cfg η, dphi cfg η⟩ (evals + 1)
      else
        if |dphi cfg η| ≤ cfg.curv_rtol * |dot cfg.direction cfg.grad0| then
          ⟨η, phi cfg η, dphi cfg η, evals + 1, false, ZoomReason.success, 0⟩
        else
          if 0 ≤ dphi cfg η then
            zoomAux cfg fuel ⟨η, phi cfg η, dphi cfg η⟩ prev (evals + 1)
          else
            bracketAux cfg fuel ⟨η, phi cfg η, dphi cfg η⟩ (2 * η) (evals + 1)

/-- Modelled from the spec: a full `ZoomLineSearch` run (§4.3) — the
bracketing phase started from the pseudo candidate at step 0 with the
caller's initial guess and the full evaluation budget. -/
def zoom_linesearch {n : ℕ} (cfg : ZoomCfg n) (init_step : ℚ) : ZoomResult :=
  bracketAux cfg cfg.max_steps
    ⟨0, cfg.value0, dot cfg.direction cfg.grad0⟩ init_step 0

/-- The outcome discipline of a zoom line-search run with evaluation
budget `budget`: success only with both strong-Wolfe conditions at the
accepted step, failure only from an exhausted budget or a bracket-width
underflow. -/
def ZoomOutcome {n : ℕ} (cfg : ZoomCfg n) (budget : ℕ)
    (res : ZoomResult) : Prop :=
  (res.failed = false → SuffDecreaseAt cfg res.step ∧ CurvatureAt cfg res.step) ∧
  (res.failed = true → res.num_evals = budget ∨
    (res.reason = ZoomReason.bracketUnderflow ∧ res.width < cfg.wmin))

/-! ## Theorems -/

theorem dot_comm {n : ℕ} (x y : Vec n) : dot x y = dot y x := by
  unfold dot
  exact Finset.sum_congr rfl fun i _ => mul_comm _ _

theorem dot_zero_right {n : ℕ} (x : Vec n) : dot x (0 : Vec n) = 0 := by
  unfold dot
  simp

theorem dot_zero_left {n : ℕ} (x : Vec n) : dot (0 : Vec n) x = 0 := by
  unfold dot
  simp

theorem dot_sub_left {n : ℕ} (x y z : Vec n) :
    dot (x - y) z = dot x z - dot y z := by
  unfold dot
  rw [← Finset.sum_sub_distrib]
  exact Finset.sum_congr rfl fun i _ => by
    simp [sub_mul]

theorem dot_add_left {n : ℕ} (x y z : Vec n) :
    dot (x + y) z = dot x z + dot y z := by
  unfold dot
  rw [← Finset.sum_add_distrib]
  exact Finset.sum_congr rfl fun i _ => by
    simp [add_mul]

theorem dot_smul_left {n : ℕ} (c : ℚ) (x y : Vec n) :
    dot (c • x) y = c * dot x y := by
  unfold dot
  rw [Finset.mul_sum]
  exact Finset.sum_congr rfl fun i _ => by
    simp [mul_assoc]

theorem dot_smul_right {n : ℕ} (c : ℚ) (x y : Vec n) :
    dot x (c • y) = c * dot x y := by
  rw [dot_comm, dot_smul_left, dot_comm]

theorem dot_sub_right {n : ℕ} (x y z : Vec n) :
    dot x (y - z) = dot x y - dot x z := by
  rw [dot_comm, dot_sub_left, dot_comm x y, dot_comm x z]

theorem dot_add_right {n : ℕ} (x y z : Vec n) :
    dot x (y + z) = dot x y + dot x z := by
  rw [dot_comm, dot_add_left, dot_comm x y, dot_comm x z]

theorem dot_self_nonneg {n : ℕ} (x : Vec n) : 0 ≤ dot x x :=
  Finset.sum_nonneg fun i _ => mul_self_nonneg (x i)

theorem dot_self_pos {n : ℕ} (x : Vec n) (hx : x ≠ 0) : 0 < dot x x := by
  rcases lt_or_eq_of_le (dot_self_nonneg x) with h | h
  · exact h
  · exfalso
    apply hx
    funext i
    have hz : ∀ j ∈ Finset.univ, x j * x j = 0 := by
      have := (Finset.sum_eq_zero_iff_of_nonneg
        (fun j _ => mul_self_nonneg (x j))).mp h.symm
      exact this
    have := hz i (Finset.mem_univ i)
    exact mul_self_eq_zero.mp this

theorem takeLast_of_length_le {α : Type} {m : ℕ} {l : List α}
    (h : l.length ≤ m) : takeLast m l = l := by
  unfold takeLast
  have : l.length - m = 0 := by omega
  rw [this, List.drop_zero]

theorem takeLast_length_le {α : Type} (m : ℕ) (l : List α) :
    (takeLast m l).length ≤ m := by
  unfold takeLast
  rw [List.length_drop]
  omega

theorem takeLast_append_of_le {α : Type} {m : ℕ} (a b : List α)
    (h : m ≤ b.length) : takeLast m (a ++ b) = takeLast m b := by
  unfold takeLast
  rw [List.length_append]
  have hidx : a.length + b.length - m = a.length + (b.length - m) := by omega
  rw [hidx, List.drop_append]

theorem takeLast_takeLast_append {α : Type} (m : ℕ) (a b : List α) :
    takeLast m (takeLast m a ++ b) = takeLast m (a ++ b) := by
  by_cases h : a.length ≤ m
  · rw [takeLast_of_length_le h]
  · have hlen : (takeLast m a).length = m := by
      unfold takeLast
      rw [List.length_drop]
      omega
    have hsplit : a = a.take (a.length - m) ++ takeLast m a := by
      unfold takeLast
      rw [List.take_append_drop]
    have h1 : takeLast m (a.take (a.length - m) ++ (takeLast m a ++ b)) =
        takeLast m (takeLast m a ++ b) :=
      takeLast_append_of_le _ _ (by rw [List.length_append, hlen]; omega)
    conv_rhs => rw [hsplit]
    rw [List.append_assoc, h1]

theorem foldl_push {n : ℕ} (m : ℕ) (ε : ℚ) :
    ∀ (ps : List (Vec n × Vec n)) (hist : List (SecantPair n)),
      hist.length ≤ m → (∀ x ∈ ps, ε < dot x.1 x.2) →
      List.foldl (fun h x => push m ε h x.1 x.2) hist ps =
        takeLast m (hist ++ ps.map mkPair) := by
  intro ps
  induction ps with
  | nil =>
      intro hist hlen _
      simp [takeLast_of_length_le hlen]
  | cons x ps ih =>
      intro hist hlen hvalid
      have hx : ε < dot x.1 x.2 := hvalid x (List.mem_cons_self x ps)
      have hpush : push m ε hist x.1 x.2 = takeLast m (hist ++ [mkPair x]) := by
        unfold push
        rw [if_pos hx]
        rfl
      rw [List.foldl_cons, hpush,
        ih _ (takeLast_length_le m _) (fun y hy => hvalid y (List.mem_cons_of_mem x hy)),
        takeLast_takeLast_append, List.append_assoc]
      rfl

theorem forwardPass_backwardPass {n : ℕ} :
    ∀ (hist : List (SecantPair n)) (γ : ℚ) (g : Vec n),
      forwardPass hist (backwardPass hist g).2 (γ • (backwardPass hist g).1) =
        twoLoop hist γ g := by
  intro hist
  induction hist with
  | nil => intro γ g; rfl
  | cons p rest ih =>
      intro γ g
      simp only [backwardPass, forwardPass, twoLoop]
      rw [ih]

theorem precondition_eq_twoLoop {n : ℕ} (scale_init_precond : Bool)
    (hist : List (SecantPair n)) (g : Vec n) :
    precondition scale_init_precond hist g =
      -(twoLoop hist (gammaOf scale_init_precond hist) g) := by
  unfold precondition
  rw [forwardPass_backwardPass]

theorem twoLoop_zero {n : ℕ} :
    ∀ (hist : List (SecantPair n)) (γ : ℚ), twoLoop hist γ (0 : Vec n) = 0 := by
  intro hist
  induction hist with
  | nil => intro γ; simp [twoLoop]
  | cons p rest ih =>
      intro γ
      simp only [twoLoop, dot_zero_right, mul_zero, zero_smul, sub_zero, ih,
        dot_zero_right, zero_sub, smul_zero, zero_smul, add_zero, neg_zero]

theorem dot_neg_left {n : ℕ} (x y : Vec n) : dot (-x) y = -(dot x y) := by
  unfold dot
  rw [← Finset.sum_neg_distrib]
  exact Finset.sum_congr rfl fun i _ => by simp

theorem inverse_curvature_pos {n : ℕ} {p : SecantPair n} (hp : ValidPair p) :
    0 < p.inverse_curvature := by
  rcases hp with ⟨hc, hρ⟩
  nlinarith

theorem dot_twoLoop_cons {n : ℕ} (p : SecantPair n) (rest : List (SecantPair n))
    (γ : ℚ) (g : Vec n) :
    dot g (twoLoop (p :: rest) γ g) =
      dot (g - (p.inverse_curvature * dot p.position_delta g) • p.gradient_delta)
        (twoLoop rest γ
          (g - (p.inverse_curvature * dot p.position_delta g) • p.gradient_delta))
        + p.inverse_curvature * (dot p.position_delta g) ^ 2 := by
  simp only [twoLoop]
  rw [dot_add_right, dot_smul_right, dot_sub_left, dot_smul_left,
    dot_comm g p.position_delta]
  ring

theorem dot_twoLoop_pos {n : ℕ} :
    ∀ (hist : List (SecantPair n)), (∀ p ∈ hist, ValidPair p) →
      ∀ (γ : ℚ), 0 < γ → ∀ (g : Vec n), g ≠ 0 → 0 < dot g (twoLoop hist γ g) := by
  intro hist
  induction hist with
  | nil =>
      intro _ γ hγ g hg
      simp only [twoLoop]
      rw [dot_smul_right]
      exact mul_pos hγ (dot_self_pos g hg)
  | cons p rest ih =>
      intro hv γ hγ g hg
      have hp : ValidPair p := hv p (List.mem_cons_self p rest)
      have hρ : 0 < p.inverse_curvature := inverse_curvature_pos hp
      rw [dot_twoLoop_cons]
      set q : Vec n :=
        g - (p.inverse_curvature * dot p.position_delta g) • p.gradient_delta with hqdef
      by_cases hq : q = 0
      · have hsg : dot p.position_delta g ≠ 0 := by
          intro h0
          apply hg
          have : q = g := by
            rw [hqdef, h0, mul_zero, zero_smul, sub_zero]
          rw [← this, hq]
        have hsq : 0 < (dot p.position_delta g) ^ 2 :=
          pow_two_pos_of_ne_zero hsg
        rw [hq, twoLoop_zero, dot_zero_left]
        have := mul_pos hρ hsq
        linarith
      · have h1 := ih (fun x hx => hv x (List.mem_cons_of_mem p hx)) γ hγ q hq
        have h2 : 0 ≤ p.inverse_curvature * (dot p.position_delta g) ^ 2 :=
          mul_nonneg (le_of_lt hρ) (sq_nonneg _)
        linarith

theorem gammaOf_pos {n : ℕ} (scale_init_precond : Bool)
    (hist : List (SecantPair n)) (hv : ∀ p ∈ hist, ValidPair p) :
    0 < gammaOf scale_init_precond hist := by
  cases scale_init_precond with
  | false => simp [gammaOf]
  | true =>
      cases hist with
      | nil => simp [gammaOf]
      | cons p rest =>
          have hp : ValidPair p := hv p (List.mem_cons_self p rest)
          have hy : p.gradient_delta ≠ 0 := by
            intro h0
            have := hp.1
            rw [h0, dot_zero_right] at this
            exact lt_irrefl 0 this
          exact div_pos hp.1 (dot_self_pos _ hy)

/-- C2: pushing a candidate secant pair with
`dot(position_delta, gradient_delta) ≤ ε` (in particular any pair with
non-positive curvature, given `0 ≤ ε`) leaves the history buffer
completely unchanged — no pair added, none evicted, and `push` is a total
function so no error is surfaced; a pair can only be stored when the
curvature exceeds `ε`. -/
theorem C2_curvature_skip_leaves_history_unchanged :
    ∀ (n m : ℕ) (ε : ℚ) (hist : List (SecantPair n)) (s y : Vec n),
      (dot s y ≤ ε → push m ε hist s y = hist) ∧
      (0 ≤ ε → dot s y ≤ 0 → push m ε hist s y = hist) := by
  intro n m ε hist s y
  constructor
  · intro h
    unfold push
    rw [if_neg (not_lt.mpr h)]
  · intro hε h0
    unfold push
    rw [if_neg (not_lt.mpr (le_trans h0 hε))]

theorem C2_curvature_skip_witness :
    push 2 0 [] (fun _ => (1 : ℚ) : Vec 1) (fun _ => (-1 : ℚ) : Vec 1) = [] :=
  (C2_curvature_skip_leaves_history_unchanged 1 2 0 []
    (fun _ => (1 : ℚ)) (fun _ => (-1 : ℚ))).2 (le_refl 0) (by simp [dot])

/-- C3: after pushing `memory_size + k` valid (curvature above `ε`) secant
pairs onto any history buffer holding at most `memory_size` pairs, the
buffer contains exactly the `memory_size` most recently pushed pairs in
push order — the first `k` pushed pairs (and the whole prior buffer) have
been evicted, oldest first. -/
theorem C3_fifo_capacity :
    ∀ (n m k : ℕ) (ε : ℚ) (hist : List (SecantPair n))
      (ps : List (Vec n × Vec n)),
      hist.length ≤ m → (∀ x ∈ ps, ε < dot x.1 x.2) → ps.length = m + k →
      List.foldl (fun h x => push m ε h x.1 x.2) hist ps =
          (ps.map mkPair).drop k ∧
      (List.foldl (fun h x => push m ε h x.1 x.2) hist ps).length = m := by
  intro n m k ε hist ps hlen hvalid hps
  have hmain := foldl_push m ε ps hist hlen hvalid
  have hmaplen : (ps.map mkPair).length = m + k := by
    rw [List.length_map, hps]
  have h1 : takeLast m (hist ++ ps.map mkPair) = takeLast m (ps.map mkPair) :=
    takeLast_append_of_le _ _ (by omega)
  have h2 : takeLast m (ps.map mkPair) = (ps.map mkPair).drop k := by
    unfold takeLast
    rw [hmaplen]
    congr 1
    omega
  refine ⟨by rw [hmain, h1, h2], ?_⟩
  rw [hmain, h1, h2, List.length_drop, hmaplen]
  omega

theorem C3_fifo_capacity_witness :
    List.foldl (fun h x => push 1 0 h x.1 x.2) []
        [((fun _ => (1 : ℚ) : Vec 1), (fun _ => (1 : ℚ) : Vec 1)),
         ((fun _ => (2 : ℚ) : Vec 1), (fun _ => (2 : ℚ) : Vec 1))] =
      ([((fun _ => (1 : ℚ) : Vec 1), (fun _ => (1 : ℚ) : Vec 1)),
        ((fun _ => (2 : ℚ) : Vec 1), (fun _ => (2 : ℚ) : Vec 1))].map
          mkPair).drop 1 ∧
    (List.foldl (fun h x => push 1 0 h x.1 x.2) []
        [((fun _ => (1 : ℚ) : Vec 1), (fun _ => (1 : ℚ) : Vec 1)),
         ((fun _ => (2 : ℚ) : Vec 1), (fun _ => (2 : ℚ) : Vec 1))]).length = 1 :=
  C3_fifo_capacity 1 1 1 0 [] _ (by simp) (by simp [dot]) (by simp)

/-- C4: the two-loop preconditioner applied with an empty history returns
exactly `-gradient` (steepest descent), for either value of
`scale_init_precond`. -/
theorem C4_empty_history_steepest_descent :
    ∀ (n : ℕ) (scale_init_precond : Bool) (g : Vec n),
      precondition scale_init_precond [] g = -g := by
  intro n scale_init_precond g
  cases scale_init_precond <;>
    simp [precondition_eq_twoLoop, gammaOf, twoLoop, one_smul]

/-- C5: for every non-empty history whose stored pairs all have positive
curvature (with correctly cached inverse curvature) and every non-zero
gradient, the direction produced by the two-loop recursion has negative
inner product with the gradient — it is a descent direction (for either
value of `scale_init_precond`; no further non-degeneracy is needed). -/
theorem C5_descent_direction :
    ∀ (n : ℕ) (scale_init_precond : Bool) (hist : List (SecantPair n))
      (g : Vec n),
      hist ≠ [] → (∀ p ∈ hist, ValidPair p) → g ≠ 0 →
      dot (precondition scale_init_precond hist g) g < 0 := by
  intro n scale_init_precond hist g _ hv hg
  rw [precondition_eq_twoLoop, dot_neg_left, neg_lt_zero,
    dot_comm]
  exact dot_twoLoop_pos hist hv _ (gammaOf_pos scale_init_precond hist hv) g hg

theorem C5_descent_direction_witness :
    dot
      (precondition true
        [⟨(fun _ => (1 : ℚ) : Vec 1), (fun _ => (1 : ℚ) : Vec 1), 1⟩]
        (fun _ => (3 : ℚ) : Vec 1))
      (fun _ => (3 : ℚ) : Vec 1) < 0 :=
  C5_descent_direction 1 true
    [⟨(fun _ => (1 : ℚ) : Vec 1), (fun _ => (1 : ℚ) : Vec 1), 1⟩]
    (fun _ => (3 : ℚ)) (by simp) (by simp [ValidPair, dot]) (by decide)

/-- C9: calling `update` on a state whose stored gradient is zero leaves
the point unchanged — the preconditioned direction is the zero vector, so
`position_delta = step • direction = 0` for whatever step the line search
returns, and the new point equals the old point. -/
theorem C9_stationary_point_update :
    ∀ (n : ℕ) (linesearch : Vec n → Vec n → ℚ → Vec n → ℚ × ℚ × Vec n)
      (scale_init_precond : Bool) (memory_size : ℕ) (ε : ℚ)
      (st : SolverState n),
      st.grad = 0 →
      precondition scale_init_precond st.history st.grad = 0 ∧
      (update linesearch scale_init_precond memory_size ε st).point = st.point := by
  intro n ls scale m ε st hg
  have hdir : precondition scale st.history st.grad = 0 := by
    rw [hg, precondition_eq_twoLoop, twoLoop_zero, neg_zero]
  refine ⟨hdir, ?_⟩
  unfold update
  simp only [hdir, smul_zero, add_zero]

theorem C9_stationary_point_update_witness :
    (update (fun _ _ _ _ => (1, 0, fun _ => 0)) true 10 0
      (⟨fun _ => 0, 0, fun _ => 0, [], 0⟩ : SolverState 1)).point =
      (⟨fun _ => 0, 0, fun _ => 0, [], 0⟩ : SolverState 1).point :=
  (C9_stationary_point_update 1 (fun _ _ _ _ => (1, 0, fun _ => 0)) true 10 0
    ⟨fun _ => 0, 0, fun _ => 0, [], 0⟩ rfl).2

/-- C1 counterexample: with `max_iter = 100`, `tol = 1`, at iteration
count 0 with gradient norm 0 (already below `tol`), the code's
continuation predicate returns `true`, but the claimed biconditional
(continue iff neither `iter ≥ max_iter` nor `err < tol`) demands `false`:
the claim fails as stated. -/
theorem C1_counterexample :
    ¬ (continuing_criterion 100 1 0 0 = true ↔
        (¬ (100 ≤ 0) ∧ ¬ ((0 : ℚ) < 1))) := by
  decide

/-- C1 (amended): the continuation predicate evaluated by `run_opt`
returns `true` iff the iteration count is zero, or the count is below
`max_iter` and the gradient norm is at least `tol`; equivalently, beyond
the forced first iteration, it continues exactly when neither
`iter_num ≥ max_iter` nor `err < tol` holds. -/
theorem C1_continuation_predicate :
    ∀ (max_iter : ℕ) (tol : ℚ) (iter_num : ℕ) (err : ℚ),
      continuing_criterion max_iter tol iter_num err = true ↔
        (iter_num = 0 ∨ (iter_num < max_iter ∧ tol ≤ err)) := by
  intro max_iter tol iter_num err
  simp [continuing_criterion, ge_iff_le]

/-- C10: the continuation predicate returns `true` whenever the iteration
count is zero, irrespective of the gradient norm, so `run_opt` always
executes at least one solver update step: with any fuel left, the loop
started at the freshly initialized carry (count 0) takes its first step
unconditionally. -/
theorem C10_first_step_always_runs :
    ∀ (n : ℕ) (stepf : Vec n × SolverState n → Vec n × SolverState n)
      (errf : Vec n → ℚ) (max_iter : ℕ) (tol : ℚ) (fuel : ℕ)
      (f : Vec n → ℚ) (gf : Vec n → Vec n) (init_params : Vec n),
      (∀ err : ℚ, continuing_criterion max_iter tol 0 err = true) ∧
      run_opt stepf errf max_iter tol (fuel + 1) f gf init_params =
        runOptLoop
          (fun c => continuing_criterion max_iter tol c.2.count (errf c.2.grad))
          stepf fuel (stepf (init_params, initState f gf init_params)) := by
  intro n stepf errf max_iter tol fuel f gf init_params
  constructor
  · intro err
    simp [continuing_criterion]
  · show runOptLoop _ stepf (fuel + 1) _ = _
    rw [runOptLoop]
    rw [if_pos]
    simp [continuing_criterion, initState]

theorem btAux_accept {n : ℕ} (f : Vec n → ℚ) (gf : Vec n → Vec n)
    (store_grad : Bool) (point direction : Vec n) (value0 : ℚ)
    (grad0 : Vec n) (c1 decrease_factor : ℚ) (fuel : ℕ) (η : ℚ) (evals : ℕ)
    (h : f (point + η • direction) ≤ value0 + c1 * η * dot direction grad0) :
    btAux f gf store_grad point direction value0 grad0 c1 decrease_factor
        (fuel + 1) η evals =
      ⟨η, f (point + η • direction),
       if store_grad then some (gf (point + η • direction)) else none,
       evals + 1, false⟩ := by
  simp only [btAux]
  rw [if_pos h]

theorem btAux_reject_last {n : ℕ} (f : Vec n → ℚ) (gf : Vec n → Vec n)
    (store_grad : Bool) (point direction : Vec n) (value0 : ℚ)
    (grad0 : Vec n) (c1 decrease_factor : ℚ) (η : ℚ) (evals : ℕ)
    (h : ¬ f (point + η • direction) ≤ value0 + c1 * η * dot direction grad0) :
    btAux f gf store_grad point direction value0 grad0 c1 decrease_factor
        1 η evals =
      ⟨η, f (point + η • direction), none, evals + 1, true⟩ := by
  simp only [btAux]
  rw [if_neg h]

theorem btAux_reject_step {n : ℕ} (f : Vec n → ℚ) (gf : Vec n → Vec n)
    (store_grad : Bool) (point direction : Vec n) (value0 : ℚ)
    (grad0 : Vec n) (c1 decrease_factor : ℚ) (fuel : ℕ) (η : ℚ) (evals : ℕ)
    (h : ¬ f (point + η • direction) ≤ value0 + c1 * η * dot direction grad0) :
    btAux f gf store_grad point direction value0 grad0 c1 decrease_factor
        (fuel + 2) η evals =
      btAux f gf store_grad point direction value0 grad0 c1 decrease_factor
        (fuel + 1) (decrease_factor * η) (evals + 1) := by
  conv_lhs => rw [btAux]
  rw [if_neg h]

theorem btAux_all_reject {n : ℕ} (f : Vec n → ℚ) (gf : Vec n → Vec n)
    (store_grad : Bool) (point direction : Vec n) (value0 : ℚ)
    (grad0 : Vec n) (c1 ρ : ℚ) :
    ∀ (k : ℕ) (η : ℚ) (evals : ℕ),
      (∀ i, i ≤ k →
        ¬ f (point + (ρ ^ i * η) • direction) ≤
            value0 + c1 * (ρ ^ i * η) * dot direction grad0) →
      btAux f gf store_grad point direction value0 grad0 c1 ρ
          (k + 1) η evals =
        ⟨ρ ^ k * η, f (point + (ρ ^ k * η) • direction), none,
         evals + (k + 1), true⟩ := by
  intro k
  induction k with
  | zero =>
      intro η evals h
      have h0 := h 0 (le_refl 0)
      rw [pow_zero, one_mul] at h0 ⊢
      exact btAux_reject_last f gf store_grad point direction value0 grad0
        c1 ρ η evals h0
  | succ k ih =>
      intro η evals h
      have h0 := h 0 (Nat.zero_le _)
      rw [pow_zero, one_mul] at h0
      rw [btAux_reject_step f gf store_grad point direction value0 grad0
        c1 ρ k η evals h0]
      have h' : ∀ i, i ≤ k →
          ¬ f (point + (ρ ^ i * (ρ * η)) • direction) ≤
              value0 + c1 * (ρ ^ i * (ρ * η)) * dot direction grad0 := by
        intro i hi
        have := h (i + 1) (Nat.succ_le_succ hi)
        have e : ρ ^ (i + 1) * η = ρ ^ i * (ρ * η) := by ring
        rwa [e] at this
      rw [ih (ρ * η) (evals + 1) h']
      have e1 : ρ ^ k * (ρ * η) = ρ ^ (k + 1) * η := by ring
      have e2 : evals + 1 + (k + 1) = evals + (k + 1 + 1) := by omega
      rw [e1, e2]

/-- C6: the backtracking line search tries the caller-supplied initial
step first and accepts it with one objective evaluation as soon as the
Armijo condition holds; a rejected trial multiplies the step by
`decrease_factor` and retries; and on the convex quadratic
`f(w) = ½‖w‖²` with `direction = -gradient`, any `c1 ≤ ½` makes the
search accept step `1` after exactly one objective evaluation. -/
theorem C6_backtracking_armijo :
    ∀ (n : ℕ) (f : Vec n → ℚ) (gf : Vec n → Vec n) (store_grad : Bool)
      (point direction : Vec n) (value0 : ℚ) (grad0 : Vec n)
      (c1 ρ : ℚ) (k : ℕ) (η0 : ℚ),
      (f (point + η0 • direction) ≤ value0 + c1 * η0 * dot direction grad0 →
        backtracking_linesearch f gf store_grad point direction value0
            grad0 c1 ρ (k + 1) η0 =
          ⟨η0, f (point + η0 • direction),
           if store_grad then some (gf (point + η0 • direction)) else none,
           1, false⟩) ∧
      (¬ f (point + η0 • direction) ≤ value0 + c1 * η0 * dot direction grad0 →
        backtracking_linesearch f gf store_grad point direction value0
            grad0 c1 ρ (k + 2) η0 =
          btAux f gf store_grad point direction value0 grad0 c1 ρ
            (k + 1) (ρ * η0) 1) ∧
      (c1 ≤ 1 / 2 →
        ∀ (w : Vec n),
          (backtracking_linesearch (fun v => 1 / 2 * dot v v) gf store_grad
              w (-w) (1 / 2 * dot w w) w c1 ρ (k + 1) 1).step = 1 ∧
          (backtracking_linesearch (fun v => 1 / 2 * dot v v) gf store_grad
              w (-w) (1 / 2 * dot w w) w c1 ρ (k + 1) 1).num_evals = 1 ∧
          (backtracking_linesearch (fun v => 1 / 2 * dot v v) gf store_grad
              w (-w) (1 / 2 * dot w w) w c1 ρ (k + 1) 1).failed = false) := by
  intro n f gf store_grad point direction value0 grad0 c1 ρ k η0
  refine ⟨?_, ?_, ?_⟩
  · intro h
    exact btAux_accept f gf store_grad point direction value0 grad0 c1 ρ
      k η0 0 h
  · intro h
    exact btAux_reject_step f gf store_grad point direction value0 grad0
      c1 ρ k η0 0 h
  · intro hc1 w
    have hpt : w + (1 : ℚ) • (-w) = 0 := by simp
    have haccept :
        (fun v => 1 / 2 * dot v v) (w + (1 : ℚ) • (-w)) ≤
          1 / 2 * dot w w + c1 * 1 * dot (-w) w := by
      have hd := dot_self_nonneg w
      simp only [hpt, dot_zero_left, mul_zero, dot_neg_left, mul_one]
      nlinarith
    rw [backtracking_linesearch,
      btAux_accept (fun v => 1 / 2 * dot v v) gf store_grad w (-w)
        (1 / 2 * dot w w) w c1 ρ k 1 0 haccept]
    exact ⟨rfl, rfl, rfl⟩

theorem C6_backtracking_armijo_witness :
    (backtracking_linesearch (fun v => 1 / 2 * dot v v)
        (fun v => v) false (fun _ => (2 : ℚ) : Vec 1)
        (-(fun _ => (2 : ℚ) : Vec 1))
        (1 / 2 * dot (fun _ => (2 : ℚ) : Vec 1) (fun _ => (2 : ℚ) : Vec 1))
        (fun _ => (2 : ℚ) : Vec 1) (1 / 2) (1 / 2) 1 1).step = 1 ∧
    (backtracking_linesearch (fun v => 1 / 2 * dot v v)
        (fun v => v) false (fun _ => (2 : ℚ) : Vec 1)
        (-(fun _ => (2 : ℚ) : Vec 1))
        (1 / 2 * dot (fun _ => (2 : ℚ) : Vec 1) (fun _ => (2 : ℚ) : Vec 1))
        (fun _ => (2 : ℚ) : Vec 1) (1 / 2) (1 / 2) 1 1).num_evals = 1 ∧
    (backtracking_linesearch (fun v => 1 / 2 * dot v v)
        (fun v => v) false (fun _ => (2 : ℚ) : Vec 1)
        (-(fun _ => (2 : ℚ) : Vec 1))
        (1 / 2 * dot (fun _ => (2 : ℚ) : Vec 1) (fun _ => (2 : ℚ) : Vec 1))
        (fun _ => (2 : ℚ) : Vec 1) (1 / 2) (1 / 2) 1 1).failed = false :=
  (C6_backtracking_armijo 1 (fun v => 1 / 2 * dot v v) (fun v => v) false
    (fun _ => (2 : ℚ)) (-(fun _ => (2 : ℚ) : Vec 1))
    (1 / 2 * dot (fun _ => (2 : ℚ) : Vec 1) (fun _ => (2 : ℚ) : Vec 1))
    (fun _ => (2 : ℚ)) (1 / 2) (1 / 2) 0 1).2.2 (le_refl (1 / 2))
    (fun _ => (2 : ℚ))

/-- C7: the backtracking line search is a total function; whenever all
`max_steps` allowed trials are rejected (no constraint on the slope
`dot(direction, grad0)`, which may be non-negative), it returns the last
(smallest) step tried, with `failed = true` and exactly `max_steps`
objective evaluations — it reports failure instead of raising. -/
theorem C7_backtracking_exhaustion :
    ∀ (n : ℕ) (f : Vec n → ℚ) (gf : Vec n → Vec n) (store_grad : Bool)
      (point direction : Vec n) (value0 : ℚ) (grad0 : Vec n)
      (c1 ρ : ℚ) (k : ℕ) (η0 : ℚ),
      (∀ i, i ≤ k →
        ¬ f (point + (ρ ^ i * η0) • direction) ≤
            value0 + c1 * (ρ ^ i * η0) * dot direction grad0) →
      backtracking_linesearch f gf store_grad point direction value0 grad0
          c1 ρ (k + 1) η0 =
        ⟨ρ ^ k * η0, f (point + (ρ ^ k * η0) • direction), none,
         k + 1, true⟩ := by
  intro n f gf store_grad point direction value0 grad0 c1 ρ k η0 h
  rw [backtracking_linesearch,
    btAux_all_reject f gf store_grad point direction value0 grad0 c1 ρ
      k η0 0 h]
  rw [Nat.zero_add]

theorem C7_backtracking_exhaustion_witness :
    backtracking_linesearch (fun v => dot v v) (fun v => v) false
        (fun _ => (0 : ℚ) : Vec 1) (fun _ => (1 : ℚ) : Vec 1) 0
        (fun _ => (1 : ℚ) : Vec 1) 0 1 2 1 =
      ⟨(1 : ℚ) ^ 1 * 1,
       (fun v => dot v v)
         ((fun _ => (0 : ℚ) : Vec 1) +
           (((1 : ℚ) ^ 1 * 1) • (fun _ => (1 : ℚ) : Vec 1))),
       none, 2, true⟩ :=
  C7_backtracking_exhaustion 1 (fun v => dot v v) (fun v => v) false
    (fun _ => (0 : ℚ)) (fun _ => (1 : ℚ)) 0 (fun _ => (1 : ℚ)) 0 1 1 1
    (by simp [dot])

theorem zoomAux_spec {n : ℕ} (cfg : ZoomCfg n) :
    ∀ (fuel : ℕ) (lo hi : ZoomPt) (evals : ℕ),
      ZoomOutcome cfg (evals + fuel) (zoomAux cfg fuel lo hi evals) := by
  intro fuel
  induction fuel with
  | zero =>
      intro lo hi evals
      simp only [zoomAux, ZoomOutcome]
      split_ifs with h1
      · exact ⟨fun hf => absurd hf (by simp), fun _ => Or.inr ⟨rfl, h1⟩⟩
      · exact ⟨fun hf => absurd hf (by simp), fun _ => Or.inl (by simp)⟩
  | succ fuel ih =>
      intro lo hi evals
      simp only [zoomAux]
      split_ifs with h1 h2 h3 h4
      · exact ⟨fun hf => absurd hf (by simp), fun _ => Or.inr ⟨rfl, h1⟩⟩
      · have h := ih lo
          ⟨(lo.step + hi.step) / 2, phi cfg ((lo.step + hi.step) / 2),
           dphi cfg ((lo.step + hi.step) / 2)⟩ (evals + 1)
        rwa [show evals + 1 + fuel = evals + (fuel + 1) by omega] at h
      · refine ⟨fun _ => ⟨?_, ?_⟩, fun hf => absurd hf (by simp)⟩
        · exact not_lt.mp (not_or.mp h2).1
        · exact h3
      · have h := ih
          ⟨(lo.step + hi.step) / 2, phi cfg ((lo.step + hi.step) / 2),
           dphi cfg ((lo.step + hi.step) / 2)⟩ lo (evals + 1)
        rwa [show evals + 1 + fuel = evals + (fuel + 1) by omega] at h
      · have h := ih
          ⟨(lo.step + hi.step) / 2, phi cfg ((lo.step + hi.step) / 2),
           dphi cfg ((lo.step + hi.step) / 2)⟩ hi (evals + 1)
        rwa [show evals + 1 + fuel = evals + (fuel + 1) by omega] at h

theorem bracketAux_spec {n : ℕ} (cfg : ZoomCfg n) :
    ∀ (fuel : ℕ) (prev : ZoomPt) (η : ℚ) (evals : ℕ),
      ZoomOutcome cfg (evals + fuel) (bracketAux cfg fuel prev η evals) := by
  intro fuel
  induction fuel with
  | zero =>
      intro prev η evals
      simp only [bracketAux, ZoomOutcome]
      exact ⟨fun hf => absurd hf (by simp), fun _ => Or.inl (by simp)⟩
  | succ fuel ih =>
      intro prev η evals
      simp only [bracketAux]
      split_ifs with h1 h2 h3
      · have h := zoomAux_spec cfg fuel prev ⟨η, phi cfg η, dphi cfg η⟩
          (evals + 1)
        rwa [show evals + 1 + fuel = evals + (fuel + 1) by omega] at h
      · refine ⟨fun _ => ⟨?_, ?_⟩, fun hf => absurd hf (by simp)⟩
        · exact not_lt.mp (not_or.mp h1).1
        · exact h2
      · have h := zoomAux_spec cfg fuel ⟨η, phi cfg η, dphi cfg η⟩ prev
          (evals + 1)
        rwa [show evals + 1 + fuel = evals + (fuel + 1) by omega] at h
      · have h := ih ⟨η, phi cfg η, dphi cfg η⟩ (2 * η) (evals + 1)
        rwa [show evals + 1 + fuel = evals + (fuel + 1) by omega] at h

/-- C8: every zoom line-search run ends in exactly one of two outcomes —
it succeeds (`failed = false`) only with the accepted step satisfying
both the sufficient-decrease condition and the strong-Wolfe curvature
condition, and it fails (`failed = true`) only when the evaluation count
has reached `max_steps` or the bracket width has dropped below the
underflow threshold. -/
theorem C8_zoom_outcomes :
    ∀ (n : ℕ) (cfg : ZoomCfg n) (init_step : ℚ),
      ((zoom_linesearch cfg init_step).failed = false →
        SuffDecreaseAt cfg (zoom_linesearch cfg init_step).step ∧
        CurvatureAt cfg (zoom_linesearch cfg init_step).step) ∧
      ((zoom_linesearch cfg init_step).failed = true →
        (zoom_linesearch cfg init_step).num_evals = cfg.max_steps ∨
        ((zoom_linesearch cfg init_step).reason = ZoomReason.bracketUnderflow ∧
         (zoom_linesearch cfg init_step).width < cfg.wmin)) := by
  intro n cfg init_step
  have h := bracketAux_spec cfg cfg.max_steps
    ⟨0, cfg.value0, dot cfg.direction cfg.grad0⟩ init_step 0
  rw [Nat.zero_add] at h
  exact h

theorem C8_zoom_outcomes_witness :
    (zoom_linesearch
        (⟨fun _ => 0, fun _ => 0, fun _ => 0, fun _ => 0, 0, fun _ => 0,
          0, 0, 0, 0⟩ : ZoomCfg 1) 1).num_evals =
      (⟨fun _ => 0, fun _ => 0, fun _ => 0, fun _ => 0, 0, fun _ => 0,
        0, 0, 0, 0⟩ : ZoomCfg 1).max_steps ∨
    ((zoom_linesearch
        (⟨fun _ => 0, fun _ => 0, fun _ => 0, fun _ => 0, 0, fun _ => 0,
          0, 0, 0, 0⟩ : ZoomCfg 1) 1).reason = ZoomReason.bracketUnderflow ∧
     (zoom_linesearch
        (⟨fun _ => 0, fun _ => 0, fun _ => 0, fun _ => 0, 0, fun _ => 0,
          0, 0, 0, 0⟩ : ZoomCfg 1) 1).width <
       (⟨fun _ => 0, fun _ => 0, fun _ => 0, fun _ => 0, 0, fun _ => 0,
         0, 0, 0, 0⟩ : ZoomCfg 1).wmin) :=
  (C8_zoom_outcomes 1
    ⟨fun _ => 0, fun _ => 0, fun _ => 0, fun _ => 0, 0, fun _ => 0,
     0, 0, 0, 0⟩ 1).2 rfl

end Optax
